import Mathlib

/-!
# Verification of the referral-graph scripts (tree_system)

Shallow embedding of the Python sources:

* `build_resolved_referrals.py` — `load_member_referrers`, `resolve_referrer`
* `check_csv_duplicates.py` — the duplicate-wallet and missing-sponsor passes
* `find_missing_sponsors.py` — the case-insensitive missing-sponsor finder

Python strings are Lean `String`s; `str.strip()` is `strip`, `str.lower()` is
`lowerStr`, Python string comparison (code-point lexicographic) is `strLe`.
A Python `dict` is an insertion-ordered association list (`List (String × String)`),
a Python `set` is an insertion-ordered duplicate-free list, and `sorted` is an
insertion sort by the given comparison.  All definitions are executable so that
concrete runs evaluate by `decide`.
-/

/-- Embedding of Python `str.lower()`: lower-case every character. -/
def lowerStr (s : String) : String := ⟨s.data.map Char.toLower⟩

/-- Drop leading whitespace characters from a character list. -/
def dropWhite : List Char → List Char
  | [] => []
  | c :: cs => if c.isWhitespace then dropWhite cs else c :: cs

/-- Embedding of Python `str.strip()`: trim whitespace at both ends. -/
def strip (s : String) : String := ⟨(dropWhite (dropWhite s.data.reverse).reverse)⟩

/-- Code-point comparison of characters, as Python compares them. -/
def charLe (a b : Char) : Bool := decide (a ≤ b)

/-- Lexicographic comparison of character lists (Python string `<=`). -/
def listLe : List Char → List Char → Bool
  | [], _ => true
  | _ :: _, [] => false
  | a :: as, b :: bs => if a = b then listLe as bs else charLe a b

/-- Embedding of Python string comparison. -/
def strLe (a b : String) : Bool := listLe a.data b.data

/-- Python `dict.get(k, "")` over an insertion-ordered association list. -/
def dictGet (m : List (String × String)) (k : String) : String :=
  match m.find? (fun p => p.1 = k) with
  | some p => p.2
  | none => ""

/-- Python `d[k] = v`: replace in place if the key exists, else append. -/
def dictInsert (m : List (String × String)) (k v : String) : List (String × String) :=
  if k ∈ m.map Prod.fst then m.map (fun p => if p.1 = k then (k, v) else p)
  else m ++ [(k, v)]

/-- Python `set.add`: insertion-ordered, duplicate-free. -/
def setInsert (s : List String) (x : String) : List String :=
  if x ∈ s then s else s ++ [x]

/-! ## `build_resolved_referrals.py` -/

/-- One data row of `members_v2_rows (1).csv`, with the two cells the script
reads (`row.get(c) or ""` yields `""` for an absent cell). -/
structure MemberRow where
  wallet_address : String
  referrer_wallet : String
deriving DecidableEq

/-- The script's hard-coded fallback root wallet. -/
def FALLBACK_ROOT : String := "0xb800d5359a85B5d55a5A680a6eF6f15475D7d9e9"

/-- One iteration of the `load_member_referrers` reading loop: strip the two
cells, skip empty wallets, store `mapping[wallet] = ref`. -/
def loadStep (mapping : List (String × String)) (row : MemberRow) :
    List (String × String) :=
  let wallet := strip row.wallet_address
  let ref := strip row.referrer_wallet
  if wallet = "" then mapping else dictInsert mapping wallet ref

/-- `load_member_referrers`: build `wallet_address -> referrer_wallet`,
skipping rows with an empty (stripped) wallet.  A repeated wallet key
overwrites the stored value, as Python `mapping[wallet] = ref` does. -/
def load_member_referrers (rows : List MemberRow) : List (String × String) :=
  rows.foldl loadStep []

/-- The loop body of `resolve_referrer`, fuelled: one unit of fuel per
iteration of the Python `while True`.  `none` models non-termination of the
loop (never reached with the fuel chosen below).  The checks appear in the
source's order: empty referrer, fallback reached, loop protection, cohort
membership, then climb to the parent (empty parent means fallback). -/
def resolveAux (member_refs : List (String × String)) (user_addresses : List String)
    (fallback : String) : Nat → List String → String → Option String
  | 0, _, _ => none
  | fuel + 1, seen, ref =>
    if ref = "" then some fallback
    else if ref = fallback then some fallback
    else if ref ∈ seen then some fallback
    else if ref ∈ user_addresses then some ref
    else
      let next := dictGet member_refs ref
      if next = "" then some fallback
      else resolveAux member_refs user_addresses fallback fuel (ref :: seen) next

/-- `resolve_referrer` with the fallback root as a parameter; the source reads
it from the module constant `FALLBACK_ROOT`.  The fuel `|member_refs| + 1`
is shown below to be enough for the loop to always reach a `return`. -/
def resolveWith (member_refs : List (String × String)) (user_addresses : List String)
    (fallback : String) (user_wallet : String) : Option String :=
  resolveAux member_refs user_addresses fallback (member_refs.length + 1) []
    (dictGet member_refs user_wallet)

/-- `resolve_referrer(user_wallet, member_refs, user_addresses)` as in the
source, with its module-level `FALLBACK_ROOT`. -/
def resolve_referrer (user_wallet : String) (member_refs : List (String × String))
    (user_addresses : List String) : Option String :=
  resolveWith member_refs user_addresses FALLBACK_ROOT user_wallet

/-! ### Basic lemmas about the resolver -/

theorem dictGet_mem_keys {m : List (String × String)} {k : String}
    (h : dictGet m k ≠ "") : k ∈ m.map Prod.fst := by
  unfold dictGet at h
  rcases hf : m.find? (fun p => p.1 = k) with _ | p
  · rw [hf] at h; exact absurd rfl h
  · have hp : p.1 = k := by
      have := List.find?_some hf
      exact of_decide_eq_true this
    have hm : p ∈ m := List.mem_of_find?_eq_some hf
    exact hp ▸ List.mem_map_of_mem Prod.fst hm

/-- Each loop iteration removes one not-yet-seen key from play. -/
theorem filter_not_seen_dec (l : List String) (x : String) (seen : List String)
    (hx : x ∈ l) (hs : x ∉ seen) :
    (l.filter (fun k => decide (k ∉ x :: seen))).length
      < (l.filter (fun k => decide (k ∉ seen))).length := by
  induction l with
  | nil => cases hx
  | cons a t ih =>
    by_cases hax : a = x
    · subst hax
      have h1 : ¬ (decide (a ∉ a :: seen) = true) := by
        simp [List.mem_cons_self a seen]
      have h2 : decide (a ∉ seen) = true := decide_eq_true hs
      have e1 : (a :: t).filter (fun k => decide (k ∉ a :: seen))
          = t.filter (fun k => decide (k ∉ a :: seen)) := List.filter_cons_of_neg h1
      have e2 : (a :: t).filter (fun k => decide (k ∉ seen))
          = a :: t.filter (fun k => decide (k ∉ seen)) := List.filter_cons_of_pos h2
      rw [e1, e2]
      have hsub : List.Sublist (t.filter fun k => decide (k ∉ a :: seen))
          (t.filter fun k => decide (k ∉ seen)) := by
        apply List.monotone_filter_right
        intro b hb
        have hbn : b ∉ a :: seen := of_decide_eq_true hb
        exact decide_eq_true (fun hbs => hbn (List.mem_cons_of_mem a hbs))
      exact Nat.lt_succ_of_le hsub.length_le
    · have hxt : x ∈ t := by
        rcases List.mem_cons.mp hx with h | h
        · exact absurd h.symm hax
        · exact h
      have ihx := ih hxt
      by_cases ha : a ∈ seen
      · have h1 : ¬ (decide (a ∉ x :: seen) = true) := by
          simp [List.mem_cons_of_mem x ha]
        have h2 : ¬ (decide (a ∉ seen) = true) := by simp [ha]
        have e1 : (a :: t).filter (fun k => decide (k ∉ x :: seen))
            = t.filter (fun k => decide (k ∉ x :: seen)) := List.filter_cons_of_neg h1
        have e2 : (a :: t).filter (fun k => decide (k ∉ seen))
            = t.filter (fun k => decide (k ∉ seen)) := List.filter_cons_of_neg h2
        rw [e1, e2]
        exact ihx
      · have h1 : decide (a ∉ x :: seen) = true := by
          apply decide_eq_true
          intro hc
          rcases List.mem_cons.mp hc with h | h
          · exact hax h
          · exact ha h
        have h2 : decide (a ∉ seen) = true := decide_eq_true ha
        have e1 : (a :: t).filter (fun k => decide (k ∉ x :: seen))
            = a :: t.filter (fun k => decide (k ∉ x :: seen)) := List.filter_cons_of_pos h1
        have e2 : (a :: t).filter (fun k => decide (k ∉ seen))
            = a :: t.filter (fun k => decide (k ∉ seen)) := List.filter_cons_of_pos h2
        rw [e1, e2]
        exact Nat.succ_lt_succ ihx

/-- With fuel exceeding the number of unseen keys, the loop always reaches a
`return`: the Python `while True` cannot run forever. -/
theorem resolveAux_isSome (m : List (String × String)) (a : List String) (fb : String) :
    ∀ (fuel : Nat) (seen : List String) (ref : String),
      ((m.map Prod.fst).filter (fun k => decide (k ∉ seen))).length < fuel →
      (resolveAux m a fb fuel seen ref).isSome := by
  intro fuel
  induction fuel with
  | zero => intro seen ref h; omega
  | succ n ih =>
    intro seen ref h
    rw [resolveAux]
    by_cases h1 : ref = ""
    · simp [h1]
    · by_cases h2 : ref = fb
      · simp [h1, h2]
      · by_cases h3 : ref ∈ seen
        · simp [h1, h2, h3]
        · by_cases h4 : ref ∈ a
          · simp [h1, h2, h3, h4]
          · by_cases h5 : dictGet m ref = ""
            · simp [h1, h2, h3, h4, h5]
            · have hkey : ref ∈ m.map Prod.fst := dictGet_mem_keys h5
              have hdec := filter_not_seen_dec (m.map Prod.fst) ref seen hkey h3
              rw [if_neg h1, if_neg h2, if_neg h3, if_neg h4]
              simp only
              rw [if_neg h5]
              exact ih (ref :: seen) (dictGet m ref) (by omega)

/-- Whatever the loop returns is a cohort member (and then non-empty) or the
fallback. -/
theorem resolveAux_shape (m : List (String × String)) (a : List String) (fb : String) :
    ∀ (fuel : Nat) (seen : List String) (ref r : String),
      resolveAux m a fb fuel seen ref = some r →
      (r ∈ a ∧ r ≠ "") ∨ r = fb := by
  intro fuel
  induction fuel with
  | zero => intro seen ref r h; simp [resolveAux] at h
  | succ n ih =>
    intro seen ref r h
    rw [resolveAux] at h
    by_cases h1 : ref = ""
    · simp [h1] at h; exact Or.inr h.symm
    · rw [if_neg h1] at h
      by_cases h2 : ref = fb
      · simp [h2] at h; exact Or.inr h.symm
      · rw [if_neg h2] at h
        by_cases h3 : ref ∈ seen
        · simp [h3] at h; exact Or.inr h.symm
        · rw [if_neg h3] at h
          by_cases h4 : ref ∈ a
          · rw [if_pos h4] at h
            have : ref = r := by exact Option.some.inj h
            subst this
            exact Or.inl ⟨h4, h1⟩
          · rw [if_neg h4] at h
            simp only at h
            by_cases h5 : dictGet m ref = ""
            · rw [if_pos h5] at h; exact Or.inr (Option.some.inj h).symm
            · rw [if_neg h5] at h
              exact ih (ref :: seen) (dictGet m ref) r h

/-- More fuel never changes an answer the loop already reached. -/
theorem resolveAux_mono (m : List (String × String)) (a : List String) (fb : String) :
    ∀ (fuel fuel' : Nat) (seen : List String) (ref r : String), fuel ≤ fuel' →
      resolveAux m a fb fuel seen ref = some r →
      resolveAux m a fb fuel' seen ref = some r := by
  intro fuel
  induction fuel with
  | zero => intro fuel' seen ref r _ h; simp [resolveAux] at h
  | succ n ih =>
    intro fuel' seen ref r hle h
    obtain ⟨k, rfl⟩ : ∃ k, fuel' = k + 1 := ⟨fuel' - 1, by omega⟩
    rw [resolveAux] at h
    rw [resolveAux]
    by_cases h1 : ref = ""
    · simpa [h1] using h
    · rw [if_neg h1] at h ⊢
      by_cases h2 : ref = fb
      · simpa [h2] using h
      · rw [if_neg h2] at h ⊢
        by_cases h3 : ref ∈ seen
        · simpa [h3] using h
        · rw [if_neg h3] at h ⊢
          by_cases h4 : ref ∈ a
          · simpa [h4] using h
          · rw [if_neg h4] at h ⊢
            simp only at h ⊢
            by_cases h5 : dictGet m ref = ""
            · simpa [h5] using h
            · rw [if_neg h5] at h ⊢
              exact ih k (ref :: seen) (dictGet m ref) r (by omega) h

theorem FALLBACK_ROOT_ne_empty : FALLBACK_ROOT ≠ "" := by decide

theorem two_mem_two_le_length {α : Type} {l : List α} {x y : α}
    (hx : x ∈ l) (hy : y ∈ l) (hxy : x ≠ y) : 2 ≤ l.length := by
  rcases l with _ | ⟨a, _ | ⟨b, t⟩⟩
  · cases hx
  · have hx1 : x = a := by simpa using hx
    have hy1 : y = a := by simpa using hy
    exact absurd (hx1.trans hy1.symm) hxy
  · simp only [List.length_cons]
    omega

/-- Claim C2: for every finite referral map, every starting identifier and
every cohort set, `resolve_referrer` terminates with `some` result that is
either a member of the cohort set or the fallback root, and is never the
empty string; the same holds for any other fallback identifier (with the
result a qualifying non-empty identifier or that fallback). -/
theorem C2_resolve_terminates_qualifying_or_fallback
    (member_refs : List (String × String)) (user_addresses : List String)
    (user_wallet : String) :
    (∃ r, resolve_referrer user_wallet member_refs user_addresses = some r ∧
      (r ∈ user_addresses ∨ r = FALLBACK_ROOT) ∧ r ≠ "") ∧
    (∀ fb, ∃ r, resolveWith member_refs user_addresses fb user_wallet = some r ∧
      ((r ∈ user_addresses ∧ r ≠ "") ∨ r = fb)) := by
  have htotal : ∀ fb w, ∃ r, resolveWith member_refs user_addresses fb w = some r := by
    intro fb w
    have hle : ((member_refs.map Prod.fst).filter
        (fun k => decide (k ∉ ([] : List String)))).length < member_refs.length + 1 := by
      have h1 : ((member_refs.map Prod.fst).filter
          (fun k => decide (k ∉ ([] : List String)))).length
          ≤ (member_refs.map Prod.fst).length := List.length_filter_le _ _
      have h2 : (member_refs.map Prod.fst).length = member_refs.length :=
        List.length_map _ _
      omega
    have := resolveAux_isSome member_refs user_addresses fb
      (member_refs.length + 1) [] (dictGet member_refs w) hle
    exact Option.isSome_iff_exists.mp this
  constructor
  · obtain ⟨r, hr⟩ := htotal FALLBACK_ROOT user_wallet
    refine ⟨r, hr, ?_, ?_⟩
    · rcases resolveAux_shape member_refs user_addresses FALLBACK_ROOT _ _ _ _ hr with h | h
      · exact Or.inl h.1
      · exact Or.inr h
    · rcases resolveAux_shape member_refs user_addresses FALLBACK_ROOT _ _ _ _ hr with h | h
      · exact h.2
      · exact h ▸ FALLBACK_ROOT_ne_empty
  · intro fb
    obtain ⟨r, hr⟩ := htotal fb user_wallet
    exact ⟨r, hr, resolveAux_shape member_refs user_addresses fb _ _ _ _ hr⟩

/-- Claim C10: when the walk reaches a referrer that is in the cohort set,
`resolve_referrer` returns it before ever looking it up in the map, so the
result need not be a key of the map.  Stated for a start whose direct
referrer `r` qualifies while being absent from the map's keys. -/
theorem C10_resolve_returns_dangling_qualifier
    (m : List (String × String)) (a : List String) (fb w r : String)
    (hget : dictGet m w = r) (hq : r ∈ a) (hnk : r ∉ m.map Prod.fst)
    (hne : r ≠ "") (hnf : r ≠ fb) :
    resolveWith m a fb w = some r ∧ r ∉ m.map Prod.fst := by
  refine ⟨?_, hnk⟩
  unfold resolveWith
  rw [hget, resolveAux]
  have h3 : r ∉ ([] : List String) := List.not_mem_nil r
  rw [if_neg hne, if_neg hnf, if_neg h3, if_pos hq]

/-- Witness for C10 at a concrete input: the map sends `u` to `q`, `q`
qualifies but is not a key of the map, and resolution returns `q`. -/
theorem C10_witness :
    resolveWith [("u", "q")] ["q"] FALLBACK_ROOT "u" = some "q" ∧
      "q" ∉ ([("u", "q")].map Prod.fst) :=
  C10_resolve_returns_dangling_qualifier [("u", "q")] ["q"] FALLBACK_ROOT "u" "q"
    (by decide) (by decide) (by decide) (by decide) (by decide)

/-- Claim C1: along a chain `X -> Y -> Z -> root` of distinct non-empty
identifiers (with `root` the fallback), resolution from `X` returns `Y`
when `Y` is in the cohort set, and returns the fallback `root` when
neither `Y` nor `Z` is. -/
theorem C1_resolution_correctness
    (m : List (String × String)) (a : List String) (X Y Z root : String)
    (hXY : dictGet m X = Y) (hYZ : dictGet m Y = Z) (hZroot : dictGet m Z = root)
    (hY : Y ≠ "") (hZ : Z ≠ "") (hroot : root ≠ "")
    (hYr : Y ≠ root) (hZr : Z ≠ root) (hXneY : X ≠ Y) (hYneZ : Y ≠ Z) :
    (Y ∈ a → resolveWith m a root X = some Y) ∧
    (Y ∉ a → Z ∉ a → resolveWith m a root X = some root) := by
  have hXk : X ∈ m.map Prod.fst := dictGet_mem_keys (hXY ▸ hY)
  have hYk : Y ∈ m.map Prod.fst := dictGet_mem_keys (hYZ ▸ hZ)
  have hlen : 2 ≤ m.length := by
    have := two_mem_two_le_length hXk hYk hXneY
    have hml : (m.map Prod.fst).length = m.length := List.length_map _ _
    omega
  obtain ⟨k, hk⟩ : ∃ k, m.length + 1 = k + 3 := ⟨m.length - 2, by omega⟩
  constructor
  · intro hYa
    unfold resolveWith
    rw [hXY, hk, resolveAux]
    have hY0 : Y ∉ ([] : List String) := List.not_mem_nil Y
    rw [if_neg hY, if_neg hYr, if_neg hY0, if_pos hYa]
  · intro hYa hZa
    unfold resolveWith
    rw [hXY, hk, resolveAux]
    have hY0 : Y ∉ ([] : List String) := List.not_mem_nil Y
    rw [if_neg hY, if_neg hYr, if_neg hY0, if_neg hYa]
    simp only
    rw [hYZ, if_neg hZ, resolveAux]
    have hZ1 : Z ∉ [Y] := by
      intro hc
      exact hYneZ ((List.mem_singleton.mp hc).symm)
    rw [if_neg hZ, if_neg hZr, if_neg hZ1, if_neg hZa]
    simp only
    rw [hZroot, if_neg hroot, resolveAux]
    rw [if_neg hroot, if_pos rfl]

/-- Witness for C1 on the concrete chain `x -> y -> z -> r`: with cohort
`{y}` resolution from `x` yields `y`; with cohort `{}` it yields the
fallback `r`. -/
theorem C1_witness :
    (("y" : String) ∈ ["y"] → resolveWith [("x", "y"), ("y", "z"), ("z", "r")] ["y"] "r" "x"
      = some "y") ∧
    (("y" : String) ∉ ["y"] → ("z" : String) ∉ ["y"] →
      resolveWith [("x", "y"), ("y", "z"), ("z", "r")] ["y"] "r" "x" = some "r") :=
  C1_resolution_correctness [("x", "y"), ("y", "z"), ("z", "r")] ["y"] "x" "y" "z" "r"
    (by decide) (by decide) (by decide) (by decide) (by decide) (by decide)
    (by decide) (by decide) (by decide) (by decide)

/-! ### State-passing model of `resolve_referrer` (for the frame property)

The Python function receives the member map and the address set by reference;
to state that it writes no shared state we thread an explicit state through
every map read and set-membership test and show the final state is the
initial one. -/

/-- The shared data `resolve_referrer` can see: the referral map and the
cohort address set. -/
structure RunState where
  member_refs : List (String × String)
  user_addresses : List String
deriving DecidableEq

/-- A `member_refs.get(k, "")` read, as a state transformer. -/
def stGet (st : RunState) (k : String) : String × RunState :=
  (dictGet st.member_refs k, st)

/-- A `ref in user_addresses` test, as a state transformer. -/
def stMem (st : RunState) (x : String) : Bool × RunState :=
  (decide (x ∈ st.user_addresses), st)

/-- The `while True` loop of `resolve_referrer`, threading the shared state
through each read. -/
def resolveLoopSt (fallback : String) :
    Nat → RunState → List String → String → Option String × RunState
  | 0, st, _, _ => (none, st)
  | fuel + 1, st, seen, ref =>
    if ref = "" then (some fallback, st)
    else if ref = fallback then (some fallback, st)
    else if ref ∈ seen then (some fallback, st)
    else
      let q := stMem st ref
      if q.1 then (some ref, q.2)
      else
        let nx := stGet q.2 ref
        if nx.1 = "" then (some fallback, nx.2)
        else resolveLoopSt fallback fuel nx.2 (ref :: seen) nx.1

/-- `resolve_referrer` over the explicit state. -/
def resolve_referrer_st (user_wallet : String) (st : RunState) :
    Option String × RunState :=
  let r0 := stGet st user_wallet
  resolveLoopSt FALLBACK_ROOT (st.member_refs.length + 1) r0.2 [] r0.1

/-- The stateful loop never writes the state and agrees with the pure loop. -/
theorem resolveLoopSt_pure (fallback : String) :
    ∀ (fuel : Nat) (st : RunState) (seen : List String) (ref : String),
      resolveLoopSt fallback fuel st seen ref
        = (resolveAux st.member_refs st.user_addresses fallback fuel seen ref, st) := by
  intro fuel
  induction fuel with
  | zero => intro st seen ref; rfl
  | succ n ih =>
    intro st seen ref
    rw [resolveLoopSt, resolveAux]
    by_cases h1 : ref = ""
    · simp [h1]
    · rw [if_neg h1, if_neg h1]
      by_cases h2 : ref = fallback
      · simp [h2]
      · rw [if_neg h2, if_neg h2]
        by_cases h3 : ref ∈ seen
        · simp [h3]
        · rw [if_neg h3, if_neg h3]
          simp only [stMem, stGet]
          by_cases h4 : ref ∈ st.user_addresses
          · simp [h4]
          · simp only [h4, decide_False, if_false, if_neg h4]
            by_cases h5 : dictGet st.member_refs ref = ""
            · simp [h5]
            · rw [if_neg h5, if_neg h5]
              exact ih st (ref :: seen) (dictGet st.member_refs ref)

/-- Claim C9: `resolve_referrer` leaves the referral map, the cohort set and
the fallback untouched — the final state equals the initial state — and its
value is the pure function of its arguments, so repeated calls with the same
arguments return the same result. -/
theorem C9_resolve_no_side_effects (user_wallet : String) (st : RunState) :
    (resolve_referrer_st user_wallet st).2 = st ∧
    (resolve_referrer_st user_wallet st).1
      = resolve_referrer user_wallet st.member_refs st.user_addresses := by
  unfold resolve_referrer_st resolve_referrer resolveWith
  rw [resolveLoopSt_pure]
  exact ⟨rfl, rfl⟩

/-! ### The map builder: dictionary lemmas -/

theorem repl_fst (k v : String) (p : String × String) :
    (if p.1 = k then (k, v) else p).1 = p.1 := by
  by_cases hp : p.1 = k
  · rw [if_pos hp]; exact hp.symm
  · rw [if_neg hp]

theorem dictGet_map_repl_self (k v : String) :
    ∀ t : List (String × String), k ∈ t.map Prod.fst →
      dictGet (t.map (fun p => if p.1 = k then (k, v) else p)) k = v := by
  intro t
  induction t with
  | nil => intro h; cases h
  | cons p t ih =>
    intro h
    by_cases hp : p.1 = k
    · simp only [List.map_cons, if_pos hp]
      unfold dictGet
      rw [List.find?_cons_of_pos _ (by simp)]
    · simp only [List.map_cons, if_neg hp]
      have h' : k ∈ t.map Prod.fst := by
        simp only [List.map_cons, List.mem_cons] at h
        rcases h with h | h
        · exact absurd h.symm hp
        · exact h
      unfold dictGet
      rw [List.find?_cons_of_neg _ (by simpa using hp)]
      exact ih h'

theorem dictGet_map_repl_ne (k v k' : String) (hne : k' ≠ k) :
    ∀ t : List (String × String),
      dictGet (t.map (fun p => if p.1 = k then (k, v) else p)) k'
        = dictGet t k' := by
  intro t
  induction t with
  | nil => rfl
  | cons p t ih =>
    by_cases hp : p.1 = k
    · simp only [List.map_cons, if_pos hp]
      have h1 : ¬ ((k, v).1 = k') := fun hc => hne (hc.symm)
      have h2 : ¬ (p.1 = k') := fun hc => hne ((hp ▸ hc).symm)
      unfold dictGet
      rw [List.find?_cons_of_neg _ (by simpa using h1),
        List.find?_cons_of_neg _ (by simpa using h2)]
      exact ih
    · simp only [List.map_cons, if_neg hp]
      by_cases hp' : p.1 = k'
      · unfold dictGet
        rw [List.find?_cons_of_pos _ (by simpa using hp'),
          List.find?_cons_of_pos _ (by simpa using hp')]
      · unfold dictGet
        rw [List.find?_cons_of_neg _ (by simpa using hp'),
          List.find?_cons_of_neg _ (by simpa using hp')]
        exact ih

theorem dictGet_append_single_self (k v : String) :
    ∀ t : List (String × String), k ∉ t.map Prod.fst →
      dictGet (t ++ [(k, v)]) k = v := by
  intro t
  induction t with
  | nil =>
    intro _
    unfold dictGet
    rw [List.nil_append, List.find?_cons_of_pos _ (by simp)]
  | cons p t ih =>
    intro h
    have hp : ¬ (p.1 = k) := by
      intro hc
      exact h (by simp [hc])
    have h' : k ∉ t.map Prod.fst := by
      intro hc
      exact h (by simp [hc])
    unfold dictGet
    rw [List.cons_append, List.find?_cons_of_neg _ (by simpa using hp)]
    exact ih h'

theorem dictGet_append_single_ne (k v k' : String) (hne : k' ≠ k) :
    ∀ t : List (String × String), dictGet (t ++ [(k, v)]) k' = dictGet t k' := by
  intro t
  induction t with
  | nil =>
    unfold dictGet
    rw [List.nil_append,
      List.find?_cons_of_neg _ (by simpa using fun hc : k = k' => hne hc.symm)]
  | cons p t ih =>
    by_cases hp' : p.1 = k'
    · unfold dictGet
      rw [List.cons_append, List.find?_cons_of_pos _ (by simpa using hp'),
        List.find?_cons_of_pos _ (by simpa using hp')]
    · unfold dictGet
      rw [List.cons_append, List.find?_cons_of_neg _ (by simpa using hp'),
        List.find?_cons_of_neg _ (by simpa using hp')]
      exact ih

theorem dictGet_dictInsert_self (m : List (String × String)) (k v : String) :
    dictGet (dictInsert m k v) k = v := by
  unfold dictInsert
  by_cases hk : k ∈ m.map Prod.fst
  · rw [if_pos hk]; exact dictGet_map_repl_self k v m hk
  · rw [if_neg hk]; exact dictGet_append_single_self k v m hk

theorem dictGet_dictInsert_ne (m : List (String × String)) (k v k' : String)
    (h : k' ≠ k) : dictGet (dictInsert m k v) k' = dictGet m k' := by
  unfold dictInsert
  by_cases hk : k ∈ m.map Prod.fst
  · rw [if_pos hk]; exact dictGet_map_repl_ne k v k' h m
  · rw [if_neg hk]; exact dictGet_append_single_ne k v k' h m

theorem dictInsert_keys (m : List (String × String)) (k v : String) :
    (dictInsert m k v).map Prod.fst
      = if k ∈ m.map Prod.fst then m.map Prod.fst else m.map Prod.fst ++ [k] := by
  unfold dictInsert
  by_cases hk : k ∈ m.map Prod.fst
  · rw [if_pos hk, if_pos hk, List.map_map]
    apply List.map_congr_left
    intro p _
    exact repl_fst k v p
  · rw [if_neg hk, if_neg hk, List.map_append]
    rfl

theorem dictInsert_keys_nodup (m : List (String × String)) (k v : String)
    (h : (m.map Prod.fst).Nodup) : ((dictInsert m k v).map Prod.fst).Nodup := by
  rw [dictInsert_keys]
  by_cases hk : k ∈ m.map Prod.fst
  · rw [if_pos hk]; exact h
  · rw [if_neg hk]
    rw [List.nodup_append]
    refine ⟨h, List.nodup_singleton k, ?_⟩
    intro x hx hx'
    rw [List.mem_singleton] at hx'
    exact hk (hx' ▸ hx)

/-- Rows whose (stripped) wallet differs from `w` never change what the map
stores for `w`. -/
theorem load_foldl_skip (w : String) :
    ∀ (rows : List MemberRow) (acc : List (String × String)),
      (∀ r ∈ rows, strip r.wallet_address ≠ w) →
      dictGet (rows.foldl loadStep acc) w = dictGet acc w := by
  intro rows
  induction rows with
  | nil => intro acc _; rfl
  | cons r t ih =>
    intro acc h
    rw [List.foldl_cons]
    have hr : strip r.wallet_address ≠ w := h r (List.mem_cons_self r t)
    have ht : ∀ x ∈ t, strip x.wallet_address ≠ w := fun x hx => h x (List.mem_cons_of_mem r hx)
    rw [ih (loadStep acc r) ht]
    unfold loadStep
    by_cases he : strip r.wallet_address = ""
    · rw [if_pos he]
    · rw [if_neg he]
      exact dictGet_dictInsert_ne acc _ _ w (fun hc => hr hc.symm)

theorem load_foldl_keys_nodup :
    ∀ (rows : List MemberRow) (acc : List (String × String)),
      (acc.map Prod.fst).Nodup → ((rows.foldl loadStep acc).map Prod.fst).Nodup := by
  intro rows
  induction rows with
  | nil => intro acc h; exact h
  | cons r t ih =>
    intro acc h
    rw [List.foldl_cons]
    apply ih
    unfold loadStep
    by_cases he : strip r.wallet_address = ""
    · rw [if_pos he]; exact h
    · rw [if_neg he]; exact dictInsert_keys_nodup acc _ _ h

/-- Claim C3 is false on the code: with two records for the same wallet the
stored referrer is the second one, not the first-seen one. -/
theorem C3_counterexample :
    dictGet (load_member_referrers [⟨"w", "r1"⟩, ⟨"w", "r2"⟩]) "w" = "r2" ∧
      ("r2" : String) ≠ "r1" := by
  constructor
  · rfl
  · decide

/-- Claim C3 (amended): after `load_member_referrers` each stored wallet key
appears exactly once (keys are duplicate-free), and the value stored for a
(stripped, case-sensitive) wallet `w` is the referrer of the last record
seen with that wallet; earlier records are overwritten, and the builder
records no duplicates. -/
theorem C3_last_seen_wins
    (rows1 rows2 : List MemberRow) (row : MemberRow) (w : String)
    (hw : strip row.wallet_address = w) (hne : w ≠ "")
    (hlast : ∀ r ∈ rows2, strip r.wallet_address ≠ w) :
    ((load_member_referrers (rows1 ++ row :: rows2)).map Prod.fst).Nodup ∧
    dictGet (load_member_referrers (rows1 ++ row :: rows2)) w
      = strip row.referrer_wallet := by
  constructor
  · exact load_foldl_keys_nodup _ [] List.nodup_nil
  · unfold load_member_referrers
    rw [List.foldl_append, List.foldl_cons]
    rw [load_foldl_skip w rows2 _ hlast]
    unfold loadStep
    rw [hw, if_neg hne]
    exact dictGet_dictInsert_self _ w _

/-- Witness for the amended C3 at a concrete input: the second of two rows
for wallet `w` wins. -/
theorem C3_witness :
    ((load_member_referrers ([⟨"w", "r1"⟩] ++ ⟨"w", "r2"⟩ :: [])).map Prod.fst).Nodup ∧
    dictGet (load_member_referrers ([⟨"w", "r1"⟩] ++ ⟨"w", "r2"⟩ :: [])) "w"
      = strip "r2" :=
  C3_last_seen_wins [⟨"w", "r1"⟩] [] ⟨"w", "r2"⟩ "w" (by decide) (by decide)
    (by intro r hr; cases hr)

/-! ## `check_csv_duplicates.py` -/

/-- One data row of `csv/WLGC1.0.csv` as this script reads it: the
`User Name` and `Referrer_User Name` cells. -/
structure DupRow where
  user : String
  referrer : String
deriving DecidableEq

/-- Python `dict`-of-lists lookup `wallet_to_row[k]` (default `[]`). -/
def listDictGet (m : List (String × List Nat)) (k : String) : List Nat :=
  match m.find? (fun p => p.1 = k) with
  | some p => p.2
  | none => []

/-- `wallet_to_row.setdefault(k, []).append(n)`: append `n` to the list at
key `k`, creating the key (at the end) if absent. -/
def listDictAppend (m : List (String × List Nat)) (k : String) (n : Nat) :
    List (String × List Nat) :=
  if k ∈ m.map Prod.fst then
    m.map (fun p => if p.1 = k then (p.1, p.2 ++ [n]) else p)
  else m ++ [(k, [n])]

/-- One iteration of the reading loop, on an enumerated row `(row_num, row)`:
record the stripped user name in `wallets` and its row number in
`wallet_to_row`; empty user names are skipped. -/
def ccdStep (acc : List String × List (String × List Nat)) (p : Nat × DupRow) :
    List String × List (String × List Nat) :=
  let u := strip p.2.user
  if u = "" then acc
  else (acc.1 ++ [u], listDictAppend acc.2 u p.1)

/-- The reading loop of `check_csv_duplicates.py`: rows are enumerated from 2
(row 1 is the header), producing `wallets` and `wallet_to_row`. -/
def ccdScan (rows : List DupRow) : List String × List (String × List Nat) :=
  (List.enumFrom 2 rows).foldl ccdStep ([], [])

/-- The `wallets` list: every non-empty stripped user name, in input order. -/
def ccdWallets (rows : List DupRow) : List String := (ccdScan rows).1

/-- The `wallet_to_row` mapping. -/
def ccdWalletToRow (rows : List DupRow) : List (String × List Nat) :=
  (ccdScan rows).2

/-- `Counter(wallets)[w]`. -/
def wallet_counts (rows : List DupRow) (w : String) : Nat :=
  (ccdWallets rows).count w

/-- Python `set`/`Counter`-key insertion order: first occurrence of each
element, in input order. -/
def dedupFirst (l : List String) : List String := l.foldl setInsert []

/-- The `duplicates` dict: `{wallet: count for wallet, count in
wallet_counts.items() if count > 1}`, in `Counter` key order (first
occurrence). -/
def ccdDuplicates (rows : List DupRow) : List (String × Nat) :=
  (dedupFirst (ccdWallets rows)).filterMap
    (fun w =>
      let c := (ccdWallets rows).count w
      if 1 < c then some (w, c) else none)

/-- Python tuple comparison on `(wallet, count)` pairs. -/
def pairLe (a b : String × Nat) : Bool :=
  if a.1 = b.1 then decide (a.2 ≤ b.2) else strLe a.1 b.1

/-- Insert into a sorted list (the inner step of a stable insertion sort). -/
def insortInsert (x : String × Nat) : List (String × Nat) → List (String × Nat)
  | [] => [x]
  | y :: ys => if pairLe x y then x :: y :: ys else y :: insortInsert x ys

/-- Embedding of Python `sorted` on the `(wallet, count)` items. -/
def pySorted (l : List (String × Nat)) : List (String × Nat) :=
  l.foldr insortInsert []

/-- The duplicate report: `for wallet, count in sorted(duplicates.items())`,
each with `wallet_to_row[wallet]`. -/
def ccdDupReport (rows : List DupRow) : List (String × Nat × List Nat) :=
  (pySorted (ccdDuplicates rows)).map
    (fun e => (e.1, e.2, listDictGet (ccdWalletToRow rows) e.1))

/-- One iteration of the second (missing-sponsor) pass: skip the
self-referring root, then report a referrer absent from `wallet_set`. -/
def ccdMissingStep (wallet_set : List String)
    (acc : List (Nat × String × String)) (p : Nat × DupRow) :
    List (Nat × String × String) :=
  let u := strip p.2.user
  let ref := strip p.2.referrer
  if ref ≠ "" ∧ ref ≠ u then
    (if ref ∉ wallet_set then acc ++ [(p.1, u, ref)] else acc)
  else acc

/-- The `missing` list of `check_csv_duplicates.py`: `(row, user, referrer)`
for every record whose non-empty, non-self referrer is not a known wallet. -/
def ccdMissing (rows : List DupRow) : List (Nat × String × String) :=
  (List.enumFrom 2 rows).foldl (ccdMissingStep (ccdWallets rows)) []

/-! ### Characterizing the duplicate-checker's loops -/

theorem listDictGet_append_self (k : String) (n : Nat) :
    ∀ m : List (String × List Nat), listDictGet (listDictAppend m k n) k
      = listDictGet m k ++ [n] := by
  intro m
  unfold listDictAppend
  by_cases hk : k ∈ m.map Prod.fst
  · rw [if_pos hk]
    induction m with
    | nil => cases hk
    | cons p t ih =>
      by_cases hp : p.1 = k
      · simp only [List.map_cons, if_pos hp]
        unfold listDictGet
        rw [List.find?_cons_of_pos _ (by simpa using hp),
          List.find?_cons_of_pos _ (by simpa using hp)]
      · have hk' : k ∈ t.map Prod.fst := by
          simp only [List.map_cons, List.mem_cons] at hk
          rcases hk with h | h
          · exact absurd h.symm hp
          · exact h
        simp only [List.map_cons, if_neg hp]
        unfold listDictGet
        rw [List.find?_cons_of_neg _ (by simpa using hp),
          List.find?_cons_of_neg _ (by simpa using hp)]
        exact ih hk'
  · rw [if_neg hk]
    induction m with
    | nil =>
      unfold listDictGet
      rw [List.nil_append, List.find?_cons_of_pos _ (by simp)]
      rfl
    | cons p t ih =>
      have hp : ¬ (p.1 = k) := by
        intro hc
        exact hk (by simp [hc])
      have hk' : k ∉ t.map Prod.fst := by
        intro hc
        exact hk (by simp [hc])
      unfold listDictGet
      rw [List.cons_append, List.find?_cons_of_neg _ (by simpa using hp),
        List.find?_cons_of_neg _ (by simpa using hp)]
      exact ih hk'

theorem listDictGet_append_ne (k k' : String) (n : Nat) (hne : k' ≠ k) :
    ∀ m : List (String × List Nat), listDictGet (listDictAppend m k n) k'
      = listDictGet m k' := by
  intro m
  unfold listDictAppend
  by_cases hk : k ∈ m.map Prod.fst
  · rw [if_pos hk]
    clear hk
    induction m with
    | nil => rfl
    | cons p t ih =>
      by_cases hp : p.1 = k
      · have h2 : ¬ (p.1 = k') := fun hc => hne ((hp ▸ hc).symm)
        simp only [List.map_cons, if_pos hp]
        unfold listDictGet
        rw [List.find?_cons_of_neg _ (by simpa using h2),
          List.find?_cons_of_neg _ (by simpa using h2)]
        exact ih
      · simp only [List.map_cons, if_neg hp]
        by_cases hp' : p.1 = k'
        · unfold listDictGet
          rw [List.find?_cons_of_pos _ (by simpa using hp'),
            List.find?_cons_of_pos _ (by simpa using hp')]
        · unfold listDictGet
          rw [List.find?_cons_of_neg _ (by simpa using hp'),
            List.find?_cons_of_neg _ (by simpa using hp')]
          exact ih
  · rw [if_neg hk]
    clear hk
    induction m with
    | nil =>
      unfold listDictGet
      rw [List.nil_append,
        List.find?_cons_of_neg _ (by simpa using fun hc : k = k' => hne hc.symm)]
    | cons p t ih =>
      by_cases hp' : p.1 = k'
      · unfold listDictGet
        rw [List.cons_append, List.find?_cons_of_pos _ (by simpa using hp'),
          List.find?_cons_of_pos _ (by simpa using hp')]
      · unfold listDictGet
        rw [List.cons_append, List.find?_cons_of_neg _ (by simpa using hp'),
          List.find?_cons_of_neg _ (by simpa using hp')]
        exact ih

/-- The `wallets` list accumulated by the loop is the in-order list of
non-empty stripped user names. -/
theorem ccdScan_wallets :
    ∀ (l : List (Nat × DupRow)) (acc : List String × List (String × List Nat)),
      (l.foldl ccdStep acc).1
        = acc.1 ++ l.filterMap
            (fun p => if strip p.2.user = "" then none else some (strip p.2.user)) := by
  intro l
  induction l with
  | nil => intro acc; simp
  | cons p t ih =>
    intro acc
    rw [List.foldl_cons, ih, List.filterMap_cons]
    unfold ccdStep
    by_cases hu : strip p.2.user = ""
    · rw [if_pos hu, if_pos hu]
    · rw [if_neg hu, if_neg hu]
      simp

/-- The row list stored under a non-empty wallet `w` is the in-order list of
row numbers whose stripped user name is `w`. -/
theorem ccdScan_walletToRow (w : String) (hw : w ≠ "") :
    ∀ (l : List (Nat × DupRow)) (acc : List String × List (String × List Nat)),
      listDictGet (l.foldl ccdStep acc).2 w
        = listDictGet acc.2 w ++ l.filterMap
            (fun p => if strip p.2.user = w then some p.1 else none) := by
  intro l
  induction l with
  | nil => intro acc; simp
  | cons p t ih =>
    intro acc
    rw [List.foldl_cons, ih, List.filterMap_cons]
    unfold ccdStep
    by_cases hu : strip p.2.user = ""
    · have huw : ¬ (strip p.2.user = w) := fun hc => hw (hc ▸ hu)
      rw [if_pos hu, if_neg huw]
    · rw [if_neg hu]
      by_cases huw : strip p.2.user = w
      · rw [if_pos huw]
        simp only
        rw [huw, listDictGet_append_self, List.append_assoc]
        rfl
      · rw [if_neg huw]
        simp only
        rw [listDictGet_append_ne _ _ _ (fun hc => huw hc.symm)]

/-- The `missing` list is the in-order list of records whose stripped
referrer is non-empty, differs from the user name, and is not a known
wallet. -/
theorem ccdMissing_filterMap (ws : List String) :
    ∀ (l : List (Nat × DupRow)) (acc : List (Nat × String × String)),
      l.foldl (ccdMissingStep ws) acc
        = acc ++ l.filterMap
            (fun p =>
              if strip p.2.referrer ≠ "" ∧ strip p.2.referrer ≠ strip p.2.user
                  ∧ strip p.2.referrer ∉ ws
              then some (p.1, strip p.2.user, strip p.2.referrer) else none) := by
  intro l
  induction l with
  | nil => intro acc; simp
  | cons p t ih =>
    intro acc
    rw [List.foldl_cons, ih, List.filterMap_cons]
    unfold ccdMissingStep
    by_cases h1 : strip p.2.referrer ≠ "" ∧ strip p.2.referrer ≠ strip p.2.user
    · rw [if_pos h1]
      by_cases h2 : strip p.2.referrer ∉ ws
      · rw [if_pos h2, if_pos ⟨h1.1, h1.2, h2⟩]
        simp
      · rw [if_neg h2, if_neg (fun hc => h2 hc.2.2)]
    · rw [if_neg h1]
      rw [if_neg (fun hc => h1 ⟨hc.1, hc.2.1⟩)]

/-! ### Set-insertion order, counting, and Python sorting -/

theorem setInsert_mem (s : List String) (x y : String) :
    y ∈ setInsert s x ↔ y ∈ s ∨ y = x := by
  unfold setInsert
  by_cases hx : x ∈ s
  · rw [if_pos hx]
    constructor
    · exact Or.inl
    · rintro (h | h)
      · exact h
      · exact h ▸ hx
  · rw [if_neg hx]
    simp

theorem setInsert_nodup (s : List String) (x : String) (h : s.Nodup) :
    (setInsert s x).Nodup := by
  unfold setInsert
  by_cases hx : x ∈ s
  · rw [if_pos hx]; exact h
  · rw [if_neg hx]
    rw [List.nodup_append]
    refine ⟨h, List.nodup_singleton x, ?_⟩
    intro y hy hy'
    rw [List.mem_singleton] at hy'
    exact hx (hy' ▸ hy)

theorem dedupFirst_mem_aux :
    ∀ (l acc : List String) (y : String),
      y ∈ l.foldl setInsert acc ↔ y ∈ acc ∨ y ∈ l := by
  intro l
  induction l with
  | nil => intro acc y; simp
  | cons a t ih =>
    intro acc y
    rw [List.foldl_cons, ih, setInsert_mem]
    constructor
    · rintro ((h | h) | h)
      · exact Or.inl h
      · exact Or.inr (h ▸ List.mem_cons_self a t)
      · exact Or.inr (List.mem_cons_of_mem a h)
    · rintro (h | h)
      · exact Or.inl (Or.inl h)
      · rcases List.mem_cons.mp h with h | h
        · exact Or.inl (Or.inr h)
        · exact Or.inr h

theorem dedupFirst_mem (l : List String) (y : String) :
    y ∈ dedupFirst l ↔ y ∈ l := by
  unfold dedupFirst
  rw [dedupFirst_mem_aux]
  simp

theorem dedupFirst_nodup (l : List String) : (dedupFirst l).Nodup := by
  unfold dedupFirst
  have haux : ∀ (t acc : List String), acc.Nodup → (t.foldl setInsert acc).Nodup := by
    intro t
    induction t with
    | nil => intro acc h; exact h
    | cons a s ih =>
      intro acc h
      rw [List.foldl_cons]
      exact ih _ (setInsert_nodup acc a h)
  exact haux l [] List.nodup_nil

/-- Counting, in the `duplicates` item list, the entries at a given key:
exactly one when the key is a listed wallet with count above 1. -/
theorem countP_filterMap_key (c : String → Nat) (w : String) :
    ∀ l : List String, l.Nodup →
      ((l.filterMap (fun x => if 1 < c x then some (x, c x) else none)).countP
        (fun e => decide (e.1 = w)))
        = if w ∈ l ∧ 1 < c w then 1 else 0 := by
  intro l
  induction l with
  | nil =>
    intro _
    rw [if_neg (fun hc => by simpa using hc.1)]
    rfl
  | cons a t ih =>
    intro hnd
    have hat : a ∉ t := (List.nodup_cons.mp hnd).1
    have hnt : t.Nodup := (List.nodup_cons.mp hnd).2
    rw [List.filterMap_cons]
    by_cases hca : 1 < c a
    · rw [if_pos hca, List.countP_cons, ih hnt]
      by_cases haw : a = w
      · subst haw
        simp [hat, hca]
      · have haw2 : ¬ (w = a) := fun h => haw h.symm
        simp [haw, haw2]
    · rw [if_neg hca, ih hnt]
      by_cases haw : a = w
      · subst haw
        simp [hat, hca]
      · have haw2 : ¬ (w = a) := fun h => haw h.symm
        simp [haw2]

theorem listLe_refl : ∀ a : List Char, listLe a a = true := by
  intro a
  induction a with
  | nil => rfl
  | cons c cs ih => unfold listLe; rw [if_pos rfl]; exact ih

theorem listLe_total : ∀ a b : List Char, listLe a b = true ∨ listLe b a = true := by
  intro a
  induction a with
  | nil => intro b; exact Or.inl rfl
  | cons c cs ih =>
    intro b
    cases b with
    | nil => exact Or.inr rfl
    | cons d ds =>
      unfold listLe
      by_cases hcd : c = d
      · rw [if_pos hcd, if_pos hcd.symm]
        exact ih ds
      · rw [if_neg hcd, if_neg (fun h => hcd h.symm)]
        unfold charLe
        rcases le_total c d with h | h
        · exact Or.inl (decide_eq_true h)
        · exact Or.inr (decide_eq_true h)

theorem listLe_antisymm : ∀ a b : List Char,
    listLe a b = true → listLe b a = true → a = b := by
  intro a
  induction a with
  | nil =>
    intro b _ hba
    cases b with
    | nil => rfl
    | cons d ds => exact absurd hba (by simp [listLe])
  | cons c cs ih =>
    intro b hab hba
    cases b with
    | nil => exact absurd hab (by simp [listLe])
    | cons d ds =>
      unfold listLe at hab hba
      by_cases hcd : c = d
      · rw [if_pos hcd] at hab
        rw [if_pos hcd.symm] at hba
        rw [hcd, ih ds hab hba]
      · rw [if_neg hcd] at hab
        rw [if_neg (fun h => hcd h.symm)] at hba
        unfold charLe at hab hba
        exact absurd (le_antisymm (of_decide_eq_true hab) (of_decide_eq_true hba)) hcd

theorem listLe_trans : ∀ a b c : List Char,
    listLe a b = true → listLe b c = true → listLe a c = true := by
  intro a
  induction a with
  | nil => intro b c _ _; rfl
  | cons x xs ih =>
    intro b c hab hbc
    cases b with
    | nil => exact absurd hab (by simp [listLe])
    | cons y ys =>
      cases c with
      | nil => exact absurd hbc (by simp [listLe])
      | cons z zs =>
        unfold listLe at hab hbc ⊢
        by_cases hxy : x = y
        · rw [if_pos hxy] at hab
          by_cases hyz : y = z
          · rw [if_pos hyz] at hbc
            rw [if_pos (hxy.trans hyz)]
            exact ih ys zs hab hbc
          · rw [if_neg hyz] at hbc
            have hxz : ¬ (x = z) := fun h => hyz (hxy ▸ h)
            rw [if_neg hxz]
            unfold charLe at hbc ⊢
            exact decide_eq_true (hxy ▸ of_decide_eq_true hbc)
        · rw [if_neg hxy] at hab
          by_cases hyz : y = z
          · have hxz : ¬ (x = z) := fun h => hxy (hyz ▸ h)
            rw [if_neg hxz]
            unfold charLe at hab ⊢
            exact decide_eq_true (hyz ▸ of_decide_eq_true hab)
          · rw [if_neg hyz] at hbc
            unfold charLe at hab hbc
            have hle : x ≤ z := le_trans (of_decide_eq_true hab) (of_decide_eq_true hbc)
            by_cases hxz : x = z
            · rw [if_pos hxz]
              have hzy : z ≤ y := hxz ▸ of_decide_eq_true hab
              have hyx : y ≤ x := hxz ▸ of_decide_eq_true hbc
              exact absurd (le_antisymm (of_decide_eq_true hab)
                (le_trans (of_decide_eq_true hbc) (hxz ▸ le_refl x))) hxy
            · rw [if_neg hxz]
              exact decide_eq_true hle

theorem strLe_refl (a : String) : strLe a a = true := listLe_refl a.data

theorem strLe_total (a b : String) : strLe a b = true ∨ strLe b a = true :=
  listLe_total a.data b.data

theorem strLe_antisymm (a b : String) (h1 : strLe a b = true)
    (h2 : strLe b a = true) : a = b := by
  cases a with
  | mk la =>
    cases b with
    | mk lb =>
      have : la = lb := listLe_antisymm la lb h1 h2
      rw [this]

theorem strLe_trans (a b c : String) (h1 : strLe a b = true)
    (h2 : strLe b c = true) : strLe a c = true :=
  listLe_trans a.data b.data c.data h1 h2

theorem pairLe_total (a b : String × Nat) : pairLe a b = true ∨ pairLe b a = true := by
  unfold pairLe
  by_cases h : a.1 = b.1
  · rw [if_pos h, if_pos h.symm]
    rcases Nat.le_total a.2 b.2 with hle | hle
    · exact Or.inl (decide_eq_true hle)
    · exact Or.inr (decide_eq_true hle)
  · rw [if_neg h, if_neg (fun hc => h hc.symm)]
    exact strLe_total a.1 b.1

theorem pairLe_trans (a b c : String × Nat) (h1 : pairLe a b = true)
    (h2 : pairLe b c = true) : pairLe a c = true := by
  unfold pairLe at h1 h2 ⊢
  by_cases hab : a.1 = b.1
  · rw [if_pos hab] at h1
    by_cases hbc : b.1 = c.1
    · rw [if_pos hbc] at h2
      rw [if_pos (hab.trans hbc)]
      exact decide_eq_true (Nat.le_trans (of_decide_eq_true h1) (of_decide_eq_true h2))
    · rw [if_neg hbc] at h2
      have hac : ¬ (a.1 = c.1) := fun h => hbc (hab ▸ h)
      rw [if_neg hac, hab]
      exact h2
  · rw [if_neg hab] at h1
    by_cases hbc : b.1 = c.1
    · have hac : ¬ (a.1 = c.1) := fun h => hab (hbc ▸ h)
      rw [if_neg hac, ← hbc]
      exact h1
    · rw [if_neg hbc] at h2
      by_cases hac : a.1 = c.1
      · exfalso
        have hca : strLe c.1 a.1 = true := hac ▸ strLe_refl a.1
        have := strLe_antisymm a.1 b.1 h1 (strLe_trans b.1 c.1 a.1 h2 hca)
        exact hab this
      · rw [if_neg hac]
        exact strLe_trans a.1 b.1 c.1 h1 h2

theorem insortInsert_perm (x : String × Nat) :
    ∀ l : List (String × Nat), List.Perm (insortInsert x l) (x :: l) := by
  intro l
  induction l with
  | nil => exact List.Perm.refl _
  | cons y ys ih =>
    unfold insortInsert
    by_cases h : pairLe x y = true
    · rw [if_pos h]
    · rw [if_neg h]
      exact (List.Perm.cons y ih).trans (List.Perm.swap x y ys)

theorem pySorted_perm (l : List (String × Nat)) : List.Perm (pySorted l) l := by
  unfold pySorted
  induction l with
  | nil => exact List.Perm.refl _
  | cons y ys ih =>
    rw [List.foldr_cons]
    exact (insortInsert_perm y _).trans (List.Perm.cons y ih)

theorem insortInsert_sorted (x : String × Nat) :
    ∀ l : List (String × Nat), l.Pairwise (fun a b => pairLe a b = true) →
      (insortInsert x l).Pairwise (fun a b => pairLe a b = true) := by
  intro l
  induction l with
  | nil => intro _; exact List.pairwise_singleton _ x
  | cons y ys ih =>
    intro h
    have hy : ∀ z ∈ ys, pairLe y z = true := (List.pairwise_cons.mp h).1
    have hys : ys.Pairwise (fun a b => pairLe a b = true) := (List.pairwise_cons.mp h).2
    unfold insortInsert
    by_cases hxy : pairLe x y = true
    · rw [if_pos hxy]
      apply List.pairwise_cons.mpr
      refine ⟨?_, h⟩
      intro z hz
      rcases List.mem_cons.mp hz with hz | hz
      · exact hz ▸ hxy
      · exact pairLe_trans x y z hxy (hy z hz)
    · rw [if_neg hxy]
      have hyx : pairLe y x = true := by
        rcases pairLe_total x y with hc | hc
        · exact absurd hc hxy
        · exact hc
      apply List.pairwise_cons.mpr
      constructor
      · intro z hz
        have hz' : z ∈ x :: ys := (insortInsert_perm x ys).mem_iff.mp hz
        rcases List.mem_cons.mp hz' with hz' | hz'
        · exact hz' ▸ hyx
        · exact hy z hz'
      · exact ih hys

theorem pySorted_sorted (l : List (String × Nat)) :
    (pySorted l).Pairwise (fun a b => pairLe a b = true) := by
  unfold pySorted
  induction l with
  | nil => exact List.Pairwise.nil
  | cons y ys ih =>
    rw [List.foldr_cons]
    exact insortInsert_sorted y _ ih

/-- `wallets` as a `filterMap` over the enumerated input. -/
theorem ccdWallets_chr (rows : List DupRow) :
    ccdWallets rows = (List.enumFrom 2 rows).filterMap
      (fun p => if strip p.2.user = "" then none else some (strip p.2.user)) := by
  unfold ccdWallets ccdScan
  rw [ccdScan_wallets]
  rfl

theorem ccdWallets_ne_empty (rows : List DupRow) (w : String)
    (hw : w ∈ ccdWallets rows) : w ≠ "" := by
  rw [ccdWallets_chr] at hw
  rcases List.mem_filterMap.mp hw with ⟨p, _, hp⟩
  by_cases hu : strip p.2.user = ""
  · rw [if_pos hu] at hp; cases hp
  · rw [if_neg hu] at hp
    intro hc
    exact hu ((Option.some.inj hp) ▸ hc ▸ rfl)

/-- The number of occurrences of a (non-empty) wallet equals the number of
rows carrying it. -/
theorem ccd_count_eq_rows_length (w : String) (hw : w ≠ "") :
    ∀ l : List (Nat × DupRow),
      (l.filterMap
        (fun p => if strip p.2.user = "" then none else some (strip p.2.user))).count w
      = (l.filterMap (fun p => if strip p.2.user = w then some p.1 else none)).length := by
  intro l
  induction l with
  | nil => rfl
  | cons p t ih =>
    rw [List.filterMap_cons, List.filterMap_cons]
    by_cases hu : strip p.2.user = ""
    · have huw : ¬ (strip p.2.user = w) := fun hc => hw (hc ▸ hu)
      simp only [if_pos hu, if_neg huw]
      exact ih
    · by_cases huw : strip p.2.user = w
      · simp only [if_neg hu, if_pos huw]
        simp [List.count_cons, huw, ih]
      · simp only [if_neg hu, if_neg huw]
        simp [List.count_cons, huw, ih]

theorem mem_ccdDuplicates (rows : List DupRow) (d : String × Nat)
    (hd : d ∈ ccdDuplicates rows) :
    d.1 ∈ ccdWallets rows ∧ d.2 = (ccdWallets rows).count d.1 ∧ 1 < d.2 := by
  unfold ccdDuplicates at hd
  rcases List.mem_filterMap.mp hd with ⟨w, hwmem, hp⟩
  simp only at hp
  by_cases hc : 1 < (ccdWallets rows).count w
  · rw [if_pos hc] at hp
    have : (w, (ccdWallets rows).count w) = d := Option.some.inj hp
    rw [← this]
    exact ⟨(dedupFirst_mem _ _).mp hwmem, rfl, hc⟩
  · rw [if_neg hc] at hp
    cases hp

/-- Claim C6 is false on the code: `"0xAb"` and `"0xaB"` share a canonical
(case-folded) identifier, two records carry them, yet the duplicate report
is empty — case variants are not counted together. -/
theorem C6_counterexample :
    lowerStr (strip "0xAb") = lowerStr (strip "0xaB") ∧
    ccdDupReport [⟨"0xAb", ""⟩, ⟨"0xaB", ""⟩] = [] := by
  constructor
  · rfl
  · rfl

/-- Claim C6 (amended): for records sharing an identical (trimmed,
case-sensitive) identifier `w`, `k ≥ 2` of them in total, the duplicate
report has exactly one entry for `w`, and that entry lists all `k` row
numbers, first-to-last in input order. -/
theorem C6_duplicate_completeness (rows : List DupRow) (w : String)
    (hw : w ≠ "") (hk : 2 ≤ (ccdWallets rows).count w) :
    ((ccdDupReport rows).countP (fun e => decide (e.1 = w)) = 1) ∧
    (∀ e ∈ ccdDupReport rows, e.1 = w →
      e.2.2 = (List.enumFrom 2 rows).filterMap
          (fun p => if strip p.2.user = w then some p.1 else none) ∧
      e.2.2.length = (ccdWallets rows).count w) := by
  have hwmem : w ∈ ccdWallets rows := by
    have : 0 < (ccdWallets rows).count w := by omega
    exact List.count_pos_iff.mp this
  constructor
  · unfold ccdDupReport
    rw [List.countP_map]
    have hperm := (pySorted_perm (ccdDuplicates rows)).countP_eq
      (fun e => decide (e.1 = w))
    have hcomp : ((fun e : String × Nat × List Nat => decide (e.1 = w)) ∘
        (fun e : String × Nat => (e.1, e.2, listDictGet (ccdWalletToRow rows) e.1)))
        = fun e : String × Nat => decide (e.1 = w) := rfl
    rw [hcomp, hperm]
    have hcond : w ∈ dedupFirst (ccdWallets rows) ∧ 1 < (ccdWallets rows).count w :=
      ⟨(dedupFirst_mem _ _).mpr hwmem, by omega⟩
    calc (ccdDuplicates rows).countP (fun e => decide (e.1 = w))
        = if w ∈ dedupFirst (ccdWallets rows) ∧ 1 < (ccdWallets rows).count w
          then 1 else 0 :=
          countP_filterMap_key (fun x => (ccdWallets rows).count x) w
            (dedupFirst (ccdWallets rows)) (dedupFirst_nodup _)
      _ = 1 := if_pos hcond
  · intro e he h1
    unfold ccdDupReport at he
    rcases List.mem_map.mp he with ⟨d, _, hde⟩
    have he22 : e.2.2 = listDictGet (ccdWalletToRow rows) e.1 := by
      rw [← hde]
    have hrows : listDictGet (ccdWalletToRow rows) w
        = (List.enumFrom 2 rows).filterMap
            (fun p => if strip p.2.user = w then some p.1 else none) := by
      unfold ccdWalletToRow ccdScan
      rw [ccdScan_walletToRow w hw]
      rfl
    constructor
    · rw [he22, h1, hrows]
    · rw [he22, h1, hrows, ← ccd_count_eq_rows_length w hw, ← ccdWallets_chr]

/-- Concrete three-row input: wallet `w` at rows 2 and 4, `v` at row 3. -/
def ccdRowsEx : List DupRow := [⟨"w", ""⟩, ⟨"v", ""⟩, ⟨"w", ""⟩]

/-- Witness for the amended C6: wallet `w` appears twice (rows 2 and 4), the
report has exactly one entry for it, listing rows `[2, 4]`. -/
theorem C6_witness :
    (((ccdDupReport ccdRowsEx).countP (fun e => decide (e.1 = "w"))) = 1) ∧
    (∀ e ∈ ccdDupReport ccdRowsEx, e.1 = "w" →
      e.2.2 = (List.enumFrom 2 ccdRowsEx).filterMap
          (fun p => if strip p.2.user = "w" then some p.1 else none) ∧
      e.2.2.length = (ccdWallets ccdRowsEx).count "w") :=
  C6_duplicate_completeness ccdRowsEx "w" (by decide) (by decide)

theorem pairLe_key (a b : String × Nat) (h : pairLe a b = true) :
    strLe a.1 b.1 = true := by
  unfold pairLe at h
  by_cases hab : a.1 = b.1
  · rw [hab]
    exact strLe_refl b.1
  · rwa [if_neg hab] at h

/-- Stated from the spec's words, for comparison with the code: duplicate
findings "in a stable order derived solely from the order of the input
records", i.e. duplicated wallets listed in order of their first occurrence
in the input. -/
def specInputOrderDuplicates (rows : List DupRow) : List String :=
  (dedupFirst (ccdWallets rows)).filter
    (fun w => decide (1 < (ccdWallets rows).count w))

/-- Claim C8 is false on the code: with wallet `b` duplicated before wallet
`a`, input order would report `b` first, but the script sorts and reports
`a` first. -/
theorem C8_counterexample :
    (ccdDupReport [⟨"b", ""⟩, ⟨"b", ""⟩, ⟨"a", ""⟩, ⟨"a", ""⟩]).map (fun e => e.1)
        = ["a", "b"] ∧
    specInputOrderDuplicates [⟨"b", ""⟩, ⟨"b", ""⟩, ⟨"a", ""⟩, ⟨"a", ""⟩]
        = ["b", "a"] ∧
    (["a", "b"] : List String) ≠ ["b", "a"] := by
  refine ⟨by decide, by decide, by decide⟩

/-- Claim C8 (amended): the findings order is deterministic but, for
duplicates, lexicographically sorted by identifier rather than derived from
input order; within each duplicate finding the provenances are first-to-last
in input order, and the dangling-referrer findings are in input-record
order. -/
theorem C8_findings_order (rows : List DupRow) :
    ((ccdDupReport rows).map (fun e => e.1)).Pairwise (fun a b => strLe a b = true) ∧
    (∀ e ∈ ccdDupReport rows,
      e.2.2 = (List.enumFrom 2 rows).filterMap
        (fun p => if strip p.2.user = e.1 then some p.1 else none)) ∧
    ccdMissing rows = (List.enumFrom 2 rows).filterMap
      (fun p =>
        if strip p.2.referrer ≠ "" ∧ strip p.2.referrer ≠ strip p.2.user
            ∧ strip p.2.referrer ∉ ccdWallets rows
        then some (p.1, strip p.2.user, strip p.2.referrer) else none) := by
  refine ⟨?_, ?_, ?_⟩
  · unfold ccdDupReport
    rw [List.map_map, List.pairwise_map]
    exact (pySorted_sorted (ccdDuplicates rows)).imp
      (fun hab => pairLe_key _ _ hab)
  · intro e he
    unfold ccdDupReport at he
    rcases List.mem_map.mp he with ⟨d, hdmem, hde⟩
    have hd' : d ∈ ccdDuplicates rows :=
      (pySorted_perm (ccdDuplicates rows)).mem_iff.mp hdmem
    have hkey : d.1 ∈ ccdWallets rows := (mem_ccdDuplicates rows d hd').1
    have hne : d.1 ≠ "" := ccdWallets_ne_empty rows d.1 hkey
    have he1 : e.1 = d.1 := by rw [← hde]
    have he22 : e.2.2 = listDictGet (ccdWalletToRow rows) d.1 := by rw [← hde]
    rw [he22, he1]
    unfold ccdWalletToRow ccdScan
    rw [ccdScan_walletToRow d.1 hne]
    rfl
  · unfold ccdMissing
    rw [ccdMissing_filterMap]
    exact List.nil_append _

/-! ## `find_missing_sponsors.py` -/

/-- One data row of `csv/WLGC1.0.csv` as this script reads it. -/
structure FmsRow where
  user : String
  referrer : String
  activation : String
deriving DecidableEq

/-- One entry of the `members` list built by the reading loop. -/
structure Member where
  row : Nat
  wallet : String
  referrer : String
  activation_seq : String
deriving DecidableEq

/-- One iteration of the reading loop: for a non-empty user name, add its
lower-cased form to `all_wallets` and append the member record (original
case preserved). -/
def fmsStep (acc : List String × List Member) (p : Nat × FmsRow) :
    List String × List Member :=
  let u := strip p.2.user
  if u = "" then acc
  else (setInsert acc.1 (lowerStr u),
    acc.2 ++ [⟨p.1, u, strip p.2.referrer, strip p.2.activation⟩])

/-- The reading loop of `find_missing_sponsors.py` (rows enumerated from 2). -/
def fmsScan (rows : List FmsRow) : List String × List Member :=
  (List.enumFrom 2 rows).foldl fmsStep ([], [])

/-- The `all_wallets` set of lower-cased wallet names. -/
def fmsAllWallets (rows : List FmsRow) : List String := (fmsScan rows).1

/-- The ordered `members` list. -/
def fmsMembers (rows : List FmsRow) : List Member := (fmsScan rows).2

/-- One row of the `missing_sponsors` output. -/
structure MissingEntry where
  row : Nat
  member_wallet : String
  missing_sponsor : String
  activation_seq : String
deriving DecidableEq

/-- The dict appended per missing sponsor, all fields in original case. -/
def mkMissingEntry (m : Member) : MissingEntry :=
  ⟨m.row, m.wallet, m.referrer, m.activation_seq⟩

/-- One iteration of the missing-sponsor loop: a member with a non-empty
referrer whose lower-cased form is not a known lower-cased wallet is
reported. -/
def fmsMissingStep (allW : List String) (acc : List MissingEntry) (m : Member) :
    List MissingEntry :=
  if m.referrer ≠ "" then
    (if lowerStr m.referrer ∉ allW then acc ++ [mkMissingEntry m] else acc)
  else acc

/-- The `missing_sponsors` list of `find_missing_sponsors.py`. -/
def missing_sponsors (rows : List FmsRow) : List MissingEntry :=
  (fmsMembers rows).foldl (fmsMissingStep (fmsAllWallets rows)) []

/-! ### Characterizing the missing-sponsor finder -/

/-- The member-record selector applied to one enumerated row. -/
def fmsMemberOf (p : Nat × FmsRow) : Option Member :=
  if strip p.2.user = "" then none
  else some ⟨p.1, strip p.2.user, strip p.2.referrer, strip p.2.activation⟩

theorem fmsScan_members :
    ∀ (l : List (Nat × FmsRow)) (acc : List String × List Member),
      (l.foldl fmsStep acc).2 = acc.2 ++ l.filterMap fmsMemberOf := by
  intro l
  induction l with
  | nil => intro acc; simp
  | cons p t ih =>
    intro acc
    rw [List.foldl_cons, ih, List.filterMap_cons]
    unfold fmsStep fmsMemberOf
    by_cases hu : strip p.2.user = ""
    · rw [if_pos hu, if_pos hu]
    · rw [if_neg hu, if_neg hu]
      simp

theorem fmsScan_wallets_mem :
    ∀ (l : List (Nat × FmsRow)) (acc : List String × List Member) (x : String),
      x ∈ (l.foldl fmsStep acc).1
        ↔ x ∈ acc.1 ∨ ∃ p ∈ l, strip p.2.user ≠ "" ∧ lowerStr (strip p.2.user) = x := by
  intro l
  induction l with
  | nil => intro acc x; simp
  | cons p t ih =>
    intro acc x
    rw [List.foldl_cons, ih]
    unfold fmsStep
    by_cases hu : strip p.2.user = ""
    · rw [if_pos hu]
      constructor
      · rintro (h | h)
        · exact Or.inl h
        · exact Or.inr (by
            rcases h with ⟨q, hq, hq2⟩
            exact ⟨q, List.mem_cons_of_mem p hq, hq2⟩)
      · rintro (h | ⟨q, hq, hq2, hq3⟩)
        · exact Or.inl h
        · rcases List.mem_cons.mp hq with hq | hq
          · exact absurd (hq ▸ hu) hq2
          · exact Or.inr ⟨q, hq, hq2, hq3⟩
    · rw [if_neg hu]
      simp only [setInsert_mem]
      constructor
      · rintro ((h | h) | h)
        · exact Or.inl h
        · exact Or.inr ⟨p, List.mem_cons_self p t, hu, h.symm⟩
        · rcases h with ⟨q, hq, hq2⟩
          exact Or.inr ⟨q, List.mem_cons_of_mem p hq, hq2⟩
      · rintro (h | ⟨q, hq, hq2, hq3⟩)
        · exact Or.inl (Or.inl h)
        · rcases List.mem_cons.mp hq with hq | hq
          · exact Or.inl (Or.inr (hq ▸ hq3).symm)
          · exact Or.inr ⟨q, hq, hq2, hq3⟩

theorem fmsMembers_chr (rows : List FmsRow) :
    fmsMembers rows = (List.enumFrom 2 rows).filterMap fmsMemberOf := by
  unfold fmsMembers fmsScan
  rw [fmsScan_members]
  rfl

theorem fmsAllWallets_mem (rows : List FmsRow) (x : String) :
    x ∈ fmsAllWallets rows
      ↔ ∃ p ∈ List.enumFrom 2 rows, strip p.2.user ≠ ""
          ∧ lowerStr (strip p.2.user) = x := by
  unfold fmsAllWallets fmsScan
  rw [fmsScan_wallets_mem]
  simp

theorem fmsMissing_chr_aux (allW : List String) :
    ∀ (l : List Member) (acc : List MissingEntry),
      l.foldl (fmsMissingStep allW) acc
        = acc ++ (l.filter
            (fun m => decide (m.referrer ≠ "" ∧ lowerStr m.referrer ∉ allW))).map
            mkMissingEntry := by
  intro l
  induction l with
  | nil => intro acc; simp
  | cons m t ih =>
    intro acc
    rw [List.foldl_cons, ih, List.filter_cons]
    unfold fmsMissingStep
    by_cases h1 : m.referrer ≠ ""
    · rw [if_pos h1]
      by_cases h2 : lowerStr m.referrer ∉ allW
      · rw [if_pos h2]
        have hc : decide (m.referrer ≠ "" ∧ lowerStr m.referrer ∉ allW) = true :=
          decide_eq_true ⟨h1, h2⟩
        rw [hc]
        simp
      · rw [if_neg h2]
        have hc : decide (m.referrer ≠ "" ∧ lowerStr m.referrer ∉ allW) = false :=
          decide_eq_false (fun hx => h2 hx.2)
        rw [hc]
        simp
    · rw [if_neg h1]
      have hc : decide (m.referrer ≠ "" ∧ lowerStr m.referrer ∉ allW) = false :=
        decide_eq_false (fun hx => h1 hx.1)
      rw [hc]
      simp

theorem missing_sponsors_chr (rows : List FmsRow) :
    missing_sponsors rows
      = ((fmsMembers rows).filter
          (fun m => decide (m.referrer ≠ "" ∧ lowerStr m.referrer ∉ fmsAllWallets rows))).map
          mkMissingEntry := by
  unfold missing_sponsors
  rw [fmsMissing_chr_aux]
  exact List.nil_append _

theorem mkMissingEntry_inj (m m' : Member)
    (h : mkMissingEntry m = mkMissingEntry m') : m = m' := by
  cases m
  cases m'
  cases h
  rfl

theorem mem_enumFrom_of_mem {α : Type} (x : α) :
    ∀ (l : List α) (n : Nat), x ∈ l → ∃ i, (i, x) ∈ List.enumFrom n l := by
  intro l
  induction l with
  | nil => intro n h; cases h
  | cons a t ih =>
    intro n h
    rcases List.mem_cons.mp h with h | h
    · subst h
      exact ⟨n, by simp [List.enumFrom]⟩
    · rcases ih (n + 1) h with ⟨i, hi⟩
      exact ⟨i, by simpa [List.enumFrom] using Or.inr hi⟩

theorem enumFrom_pairwise {α : Type} :
    ∀ (l : List α) (n : Nat),
      (List.enumFrom n l).Pairwise (fun a b => a.1 < b.1) := by
  intro l
  induction l with
  | nil => intro n; exact List.Pairwise.nil
  | cons a t ih =>
    intro n
    have he : List.enumFrom n (a :: t) = (n, a) :: List.enumFrom (n + 1) t := rfl
    rw [he]
    apply List.pairwise_cons.mpr
    refine ⟨?_, ih (n + 1)⟩
    intro p hp
    have := List.le_fst_of_mem_enumFrom hp
    omega

theorem fmsMemberOf_row (p : Nat × FmsRow) (x : Member) (h : x ∈ fmsMemberOf p) :
    x.row = p.1 := by
  unfold fmsMemberOf at h
  by_cases hu : strip p.2.user = ""
  · rw [if_pos hu] at h; cases h
  · rw [if_neg hu] at h
    have hx := Option.mem_some_iff.mp h
    rw [← hx]

theorem fmsMembers_pairwise_row (rows : List FmsRow) :
    (fmsMembers rows).Pairwise (fun a b => a.row < b.row) := by
  rw [fmsMembers_chr, List.pairwise_filterMap]
  apply (enumFrom_pairwise rows 2).imp
  intro a b hab x hx y hy
  rw [fmsMemberOf_row a x hx, fmsMemberOf_row b y hy]
  exact hab

theorem fmsMembers_nodup (rows : List FmsRow) : (fmsMembers rows).Nodup :=
  (fmsMembers_pairwise_row rows).imp
    (fun h => fun hc => absurd (hc ▸ h) (lt_irrefl _))

theorem countP_map_filter_eq_one (m : Member) (p : Member → Bool) :
    ∀ L : List Member, L.Nodup → m ∈ L → p m = true →
      ((L.filter p).map mkMissingEntry).countP
        (fun e => decide (e = mkMissingEntry m)) = 1 := by
  intro L
  induction L with
  | nil => intro _ hm _; cases hm
  | cons a t ih =>
    intro hnd hm hp
    have hat : a ∉ t := (List.nodup_cons.mp hnd).1
    have hnt : t.Nodup := (List.nodup_cons.mp hnd).2
    rw [List.filter_cons]
    by_cases ham : a = m
    · subst ham
      rw [if_pos hp]
      rw [List.map_cons, List.countP_cons]
      have hz : ((t.filter p).map mkMissingEntry).countP
          (fun e => decide (e = mkMissingEntry a)) = 0 := by
        rw [List.countP_eq_zero]
        intro e he
        rcases List.mem_map.mp he with ⟨m', hm', rfl⟩
        have hm'' : m' ∈ t := List.mem_of_mem_filter hm'
        intro hc
        exact hat ((mkMissingEntry_inj m' a (of_decide_eq_true hc)) ▸ hm'')
      rw [hz]
      simp
    · have hmt : m ∈ t := by
        rcases List.mem_cons.mp hm with h | h
        · exact absurd h.symm ham
        · exact h
      by_cases hpa : p a = true
      · rw [if_pos hpa]
        rw [List.map_cons, List.countP_cons, ih hnt hmt hp]
        have hfa : decide (mkMissingEntry a = mkMissingEntry m) = false := by
          apply decide_eq_false
          intro hc
          exact ham (mkMissingEntry_inj a m hc)
        rw [hfa]
        simp
      · rw [if_neg hpa]
        exact ih hnt hmt hp

theorem countP_map_filter_eq_zero (m : Member) (p : Member → Bool)
    (L : List Member) (hp : p m = false) :
    ((L.filter p).map mkMissingEntry).countP
      (fun e => decide (e = mkMissingEntry m)) = 0 := by
  rw [List.countP_eq_zero]
  intro e he
  rcases List.mem_map.mp he with ⟨m', hm', rfl⟩
  have hpm' : p m' = true := List.of_mem_filter hm'
  intro hc
  have hm'' : m' = m := mkMissingEntry_inj m' m (of_decide_eq_true hc)
  rw [hm'', hp] at hpm'
  cases hpm'

theorem fmsMembers_wallet_mem_allW (rows : List FmsRow) (m : Member)
    (hm : m ∈ fmsMembers rows) : lowerStr m.wallet ∈ fmsAllWallets rows := by
  rw [fmsMembers_chr] at hm
  rcases List.mem_filterMap.mp hm with ⟨p, hp, hpm⟩
  unfold fmsMemberOf at hpm
  by_cases hu : strip p.2.user = ""
  · rw [if_pos hu] at hpm; cases hpm
  · rw [if_neg hu] at hpm
    have hm' := Option.some.inj hpm
    rw [fmsAllWallets_mem]
    exact ⟨p, hp, hu, by rw [← hm']⟩

/-- Claim C5: a member record with a non-empty referrer whose canonical
(lower-cased) form is absent from the wallet key set yields exactly one
missing-sponsor finding; a member whose referrer canonical-equals its own
identifier is never reported (its own wallet is in the key set), and the
duplicate checker's dangling pass explicitly exempts self-referential
records, so none of its findings is self-referential. -/
theorem C5_dangling_exactly_once (rows : List FmsRow) (m : Member)
    (hm : m ∈ fmsMembers rows) (href : m.referrer ≠ "")
    (habs : lowerStr m.referrer ∉ fmsAllWallets rows) :
    ((missing_sponsors rows).countP (fun e => decide (e = mkMissingEntry m)) = 1) ∧
    (∀ m' ∈ fmsMembers rows, lowerStr m'.referrer = lowerStr m'.wallet →
      (missing_sponsors rows).countP (fun e => decide (e = mkMissingEntry m')) = 0) ∧
    (∀ (rows2 : List DupRow), ∀ e ∈ ccdMissing rows2, e.2.2 ≠ e.2.1) := by
  refine ⟨?_, ?_, ?_⟩
  · rw [missing_sponsors_chr]
    exact countP_map_filter_eq_one m _ (fmsMembers rows) (fmsMembers_nodup rows) hm
      (decide_eq_true ⟨href, habs⟩)
  · intro m' hm' hself
    rw [missing_sponsors_chr]
    apply countP_map_filter_eq_zero
    apply decide_eq_false
    intro hc
    exact hc.2 (hself ▸ fmsMembers_wallet_mem_allW rows m' hm')
  · intro rows2 e he
    unfold ccdMissing at he
    rw [ccdMissing_filterMap, List.nil_append] at he
    rcases List.mem_filterMap.mp he with ⟨p, _, hp⟩
    by_cases hcond : strip p.2.referrer ≠ "" ∧ strip p.2.referrer ≠ strip p.2.user
        ∧ strip p.2.referrer ∉ ccdWallets rows2
    · rw [if_pos hcond] at hp
      have hpe := Option.some.inj hp
      rw [← hpe]
      exact hcond.2.1
    · rw [if_neg hcond] at hp
      cases hp

/-- Concrete one-row input for the missing-sponsor finder: member `alice`
at row 2 with referrer `bob`, which is not a wallet. -/
def fmsRowsEx : List FmsRow := [⟨"alice", "bob", ""⟩]

/-- The member record built from `fmsRowsEx`. -/
def memEx : Member := ⟨2, "alice", "bob", ""⟩

/-- Witness for C5: on `fmsRowsEx`, exactly one finding reports `alice`'s
dangling referrer `bob`. -/
theorem C5_witness :
    ((missing_sponsors fmsRowsEx).countP
      (fun e => decide (e = mkMissingEntry memEx)) = 1) ∧
    (∀ m' ∈ fmsMembers fmsRowsEx, lowerStr m'.referrer = lowerStr m'.wallet →
      (missing_sponsors fmsRowsEx).countP
        (fun e => decide (e = mkMissingEntry m')) = 0) ∧
    (∀ (rows2 : List DupRow), ∀ e ∈ ccdMissing rows2, e.2.2 ≠ e.2.1) :=
  C5_dangling_exactly_once fmsRowsEx memEx (by decide) (by decide) (by decide)

/-- Claim C4 is false on the code: the map builder stores case variants of
one identifier as two distinct nodes, and chain resolution fails to match a
referrer against a cohort entry differing only in case, falling back
instead of returning it. -/
theorem C4_counterexample :
    lowerStr "0xABC" = lowerStr "0xabc" ∧
    resolve_referrer "u" [("u", "0xABC")] ["0xabc"] = some FALLBACK_ROOT ∧
    some FALLBACK_ROOT ≠ some ("0xABC" : String) ∧
    ((load_member_referrers [⟨"0xAB", "r1"⟩, ⟨"0xab", "r2"⟩]).map Prod.fst)
      = ["0xAB", "0xab"] := by
  refine ⟨rfl, by decide, by decide, by decide⟩

/-- Claim C4 (amended): only the missing-sponsor finder matches identifiers
case-insensitively — a member whose referrer equals some wallet up to case
is never reported missing — while every reported entry preserves the
original casing of the member's wallet and referrer; map building,
duplicate detection and chain resolution compare identifiers
case-sensitively. -/
theorem C4_case_insensitive_matching (rows : List FmsRow) (m : Member)
    (_hm : m ∈ fmsMembers rows)
    (hmatch : ∃ r ∈ rows, strip r.user ≠ ""
      ∧ lowerStr (strip r.user) = lowerStr m.referrer) :
    mkMissingEntry m ∉ missing_sponsors rows ∧
    (∀ e ∈ missing_sponsors rows, ∃ m' ∈ fmsMembers rows,
      e = mkMissingEntry m' ∧ e.missing_sponsor = m'.referrer
        ∧ e.member_wallet = m'.wallet) := by
  constructor
  · intro hc
    rw [missing_sponsors_chr] at hc
    rcases List.mem_map.mp hc with ⟨m', hm', heq⟩
    have hmm : m' = m := mkMissingEntry_inj m' m heq
    have hcond : m'.referrer ≠ "" ∧ lowerStr m'.referrer ∉ fmsAllWallets rows := by
      have hfilt := List.of_mem_filter hm'
      exact of_decide_eq_true hfilt
    rcases hmatch with ⟨r, hr, hru, hrl⟩
    rcases mem_enumFrom_of_mem r rows 2 hr with ⟨i, hi⟩
    have hin : lowerStr m.referrer ∈ fmsAllWallets rows :=
      (fmsAllWallets_mem rows _).mpr ⟨(i, r), hi, hru, hrl⟩
    exact (hmm ▸ hcond).2 hin
  · intro e he
    rw [missing_sponsors_chr] at he
    rcases List.mem_map.mp he with ⟨m', hm', heq⟩
    refine ⟨m', List.mem_of_mem_filter hm', heq.symm, ?_, ?_⟩
    · rw [← heq]
      rfl
    · rw [← heq]
      rfl

/-- Concrete input for C4's witness: wallet `Bob` at row 2; member `alice`
at row 3 refers to `BOB`, which matches `Bob` only up to case. -/
def fmsRowsEx2 : List FmsRow := [⟨"Bob", "", ""⟩, ⟨"alice", "BOB", ""⟩]

/-- The member record for `alice` in `fmsRowsEx2`. -/
def memEx2 : Member := ⟨3, "alice", "BOB", ""⟩

/-- Witness for the amended C4: `alice`'s referrer `BOB` matches wallet
`Bob` case-insensitively, so no finding is emitted for her. -/
theorem C4_witness :
    mkMissingEntry memEx2 ∉ missing_sponsors fmsRowsEx2 ∧
    (∀ e ∈ missing_sponsors fmsRowsEx2, ∃ m' ∈ fmsMembers fmsRowsEx2,
      e = mkMissingEntry m' ∧ e.missing_sponsor = m'.referrer
        ∧ e.member_wallet = m'.wallet) :=
  C4_case_insensitive_matching fmsRowsEx2 memEx2 (by decide) (by decide)

/-! ## Cycle audit

No script in the sources implements the Integrity Checker's cycle pass; it
exists only in the specification, so it is modelled here from the spec's
words and the cycle claim is settled against this model. -/

/-- Modelled from the spec: lookup in the referral map keyed by case-folded
identifier (the spec's `ReferralMap`); missing from the sources, which have
no cycle-audit lookup. -/
def auditGet (m : List (String × String)) (k : String) : Option String :=
  match m.find? (fun p => lowerStr p.1 = lowerStr k) with
  | some p => some p.2
  | none => none

/-- Modelled from the spec: the ordered cycle "from first repeated node back
to itself" — the walk path from the first canonical occurrence of `cur`
onward; missing from the sources, which extract no cycles. -/
def dropToCycle (cur : String) : List String → List String
  | [] => []
  | x :: xs => if lowerStr x = lowerStr cur then x :: xs else dropToCycle cur xs

/-- Modelled from the spec: one walk of the cycle check — follow
`identifier -> referrer -> referrer's referrer -> …` keeping the
visited-in-this-walk path (canonical form); terminate on an empty referrer,
an unknown referrer, or a self-root; report a cycle when a canonical
identifier repeats.  Missing from the sources, which never walk the map for
cycles. -/
def walkCycle (m : List (String × String)) :
    Nat → List String → String → Option (List String)
  | 0, _, _ => none
  | fuel + 1, path, cur =>
    if lowerStr cur ∈ path.map lowerStr then some (dropToCycle cur path)
    else
      match auditGet m cur with
      | none => none
      | some ref =>
        if ref = "" then none
        else if lowerStr ref = lowerStr cur then none
        else walkCycle m fuel (path ++ [cur]) ref

/-- Modelled from the spec: equality of the canonical (case-folded) sets of
cycle members, the dedup key for reported cycles. -/
def sameCycleSet (c d : List String) : Bool :=
  (c.map lowerStr).all (fun x => decide (x ∈ d.map lowerStr)) &&
  (d.map lowerStr).all (fun x => decide (x ∈ c.map lowerStr))

/-- Modelled from the spec: the cycle audit — walk from every identifier in
the map, in map order, and report each distinct cycle exactly once,
deduplicating by the canonical set of cycle members rather than by the
walk's starting point.  Missing from the sources entirely. -/
def auditCycles (m : List (String × String)) : List (List String) :=
  (m.map Prod.fst).foldl
    (fun acc start =>
      match walkCycle m (m.length + 1) [] start with
      | none => acc
      | some cyc =>
        if acc.any (fun c => sameCycleSet c cyc) then acc else acc ++ [cyc])
    []

/-- Claim C7: on a map forming the cycle `A -> B -> C -> A`, whatever the
map's iteration order (any of the six list orders), the audit reports
exactly one cycle, and its member set is `{A, B, C}`. -/
theorem C7_cycle_reported_once (m : List (String × String))
    (hperm : m = [("A", "B"), ("B", "C"), ("C", "A")] ∨
             m = [("A", "B"), ("C", "A"), ("B", "C")] ∨
             m = [("B", "C"), ("A", "B"), ("C", "A")] ∨
             m = [("B", "C"), ("C", "A"), ("A", "B")] ∨
             m = [("C", "A"), ("A", "B"), ("B", "C")] ∨
             m = [("C", "A"), ("B", "C"), ("A", "B")]) :
    (auditCycles m).length = 1 ∧
    ∀ c ∈ auditCycles m, sameCycleSet c ["A", "B", "C"] = true := by
  rcases hperm with h | h | h | h | h | h <;> subst h <;> exact ⟨by decide, by decide⟩

/-- Witness for C7 at the first iteration order. -/
theorem C7_witness :
    (auditCycles [("A", "B"), ("B", "C"), ("C", "A")]).length = 1 ∧
    ∀ c ∈ auditCycles [("A", "B"), ("B", "C"), ("C", "A")],
      sameCycleSet c ["A", "B", "C"] = true :=
  C7_cycle_reported_once [("A", "B"), ("B", "C"), ("C", "A")] (Or.inl rfl)
